import Mathlib

/-!
# Verification of `pyro/distributions/lkj.py`

Shallow embedding of the LKJ correlation-Cholesky transform and prior from
`src/pyro/distributions/lkj.py`, together with proofs of the specified
properties.  Matrices are embedded as functions `ℕ → ℕ → ℝ` (entries outside
the `D × D` region are the zeros that `torch.zeros` initialises them to),
flat vectors as functions `ℕ → ℝ`, and tensor shapes, where they matter for
control flow, are carried explicitly.
-/

open Finset

noncomputable section

/-! ## Flat-index bookkeeping for the partial-correlation vector

`_PartialCorrToCorrLCholeskyTransform._call` consumes the flat input `x`
column by column: column 0 takes the first `D - 1` entries (rows `1 .. D-1`),
and column `j ≥ 1` takes the next `D - 1 - j` entries (rows `j+1 .. D-1`,
tracked by the running index `i` in the Python code). -/

/-- Start of column `j`'s block in the flat vector: the running index `i`
of the source at the beginning of loop iteration `j`. -/
def colOffset (D j : ℕ) : ℕ := ∑ c ∈ Finset.range j, (D - 1 - c)

/-- Flat index of matrix position `(i, j)` (with `j < i < D`) in the
partial-correlation vector, matching the source's consumption order. -/
def xIdx (D i j : ℕ) : ℕ := colOffset D j + (i - j - 1)

/-! ## Forward transform `_PartialCorrToCorrLCholeskyTransform._call`

In the source, `last_squared_y` holds, at loop iteration `j`, the running sum
`∑_{c < j} y[row, c]²` for each row `row ≥ j`.  We embed that accumulator as
`srow x D i j` (the sum for row `i` after the first `j` columns) and the
entry written at `(i, j)` as `entryFromS` applied to the accumulator value. -/

/-- The matrix entry the forward pass writes at `(i, j)`, given the running
sum `s = ∑_{c < j} y[i, c]²`:
* `y[0, 0] = 1`;
* `y[i, 0] = x[i - 1]` for `i ≥ 1` (column 0 is copied from `x`);
* `y[j, j] = sqrt(1 - s)` (diagonal);
* `y[i, j] = x[xIdx D i j] * sqrt(1 - s)` for `0 < j < i`;
* entries above the diagonal stay `0` (from `torch.zeros`). -/
def entryFromS (x : ℕ → ℝ) (D i j : ℕ) (s : ℝ) : ℝ :=
  if j = 0 then (if i = 0 then 1 else x (i - 1))
  else if j = i then Real.sqrt (1 - s)
  else if j < i then x (xIdx D i j) * Real.sqrt (1 - s)
  else 0

/-- The accumulator `last_squared_y` of the source, for row `i`: the sum of
squares of the first `j` entries of row `i`. -/
def srow (x : ℕ → ℝ) (D i : ℕ) : ℕ → ℝ
  | 0 => 0
  | j + 1 => srow x D i j + (entryFromS x D i j (srow x D i j)) ^ 2

/-- The forward map `_call`: the `D × D` matrix `y` built from the flat
vector `x`.  Positions outside the `D × D` region are `0`. -/
def forwardY (x : ℕ → ℝ) (D : ℕ) (i j : ℕ) : ℝ :=
  if i < D ∧ j < D then entryFromS x D i j (srow x D i j) else 0

/-! ## Inverse transform `_PartialCorrToCorrLCholeskyTransform._inverse` -/

/-- Entry `z_tri[r, m]` of the source: the partial correlation recovered from
`y[r+2, m+1]` by dividing out `sqrt(1 - cumsum(y[r+2, 0:r+1]²)[m])`. -/
def zTriEntry (y : ℕ → ℕ → ℝ) (r m : ℕ) : ℝ :=
  y (r + 2) (m + 1) / Real.sqrt (1 - ∑ c ∈ Finset.range (m + 1), (y (r + 2) c) ^ 2)

/-- The flat vector returned by `_inverse` on a `D × D` matrix `y`:
`z_stack` starts with column 0 (`y[1:, 0]`) and then, for each
`j = 0 .. D-3`, appends `z_tri[j:, j]` (recovered column `j+1`). -/
def inverseList (y : ℕ → ℕ → ℝ) (D : ℕ) : List ℝ :=
  ((List.range (D - 1)).map fun t => y (t + 1) 0) ++
    (List.range (D - 2)).flatMap fun j =>
      (List.range (D - 2 - j)).map fun r => zTriEntry y (j + r) j

/-- Explicit matrix value with shape, used where the source checks shapes
(`_inverse`'s squareness test, `log_prob`'s `expand_as`). -/
structure TMat where
  rows : ℕ
  cols : ℕ
  entry : ℕ → ℕ → ℝ

/-- `True` exactly on the `ok` branch of an `Except`. -/
def exceptOk {ε α : Type} : Except ε α → Bool
  | Except.ok _ => true
  | Except.error _ => false

/-- `_inverse` including its squareness check: a non-square input raises
`ValueError` before anything else runs. -/
def inverse_checked (y : TMat) : Except String (List ℝ) :=
  if y.rows ≠ y.cols then
    Except.error "A matrix that isn't square can't be a Cholesky factor of a correlation matrix"
  else Except.ok (inverseList y.entry y.cols)

/-! ## `log_abs_det_jacobian` -/

/-- `_PartialCorrToCorrLCholeskyTransform.log_abs_det_jacobian`.  The first
argument is unused by the source body (`UnconstrainedToCorrLCholeskyTransform`
passes `None` there, embedded as `Option.none`): the result is computed from
`y` alone by masking out the diagonal with `eye(D).ne(1)` and summing
`log(1 - Σ_j x_l[i, j]²)` over the rows, times `0.5`. -/
def log_abs_det_jacobian (x : Option (ℕ → ℝ)) (y : ℕ → ℕ → ℝ) (D : ℕ) : ℝ :=
  (∑ i ∈ Finset.range D,
    Real.log (1 - ∑ j ∈ Finset.range D, (y i j * (if i = j then 0 else 1)) ^ 2)) * 0.5

/-! ## `UnconstrainedToCorrLCholeskyTransform` -/

/-- `UnconstrainedToCorrLCholeskyTransform._call`: squash through `tanh`,
then apply the inner transform. -/
def unconstrained_call (u : ℕ → ℝ) (D : ℕ) : ℕ → ℕ → ℝ :=
  forwardY (fun n => Real.tanh (u n)) D

/-- `UnconstrainedToCorrLCholeskyTransform._inverse`: the inner inverse,
then `u = log((1 + z) / (1 - z)) / 2` elementwise. -/
def unconstrained_inverse (y : ℕ → ℕ → ℝ) (D : ℕ) : List ℝ :=
  (inverseList y D).map fun z => Real.log ((1 + z) / (1 - z)) / 2

/-- `UnconstrainedToCorrLCholeskyTransform.log_abs_det_jacobian` on a length
`n` input: `x.cosh().log().sum(-1).mul(-2)` plus the inner transform's
`log_abs_det_jacobian(None, y)`. -/
def unconstrained_log_abs_det_jacobian (x : ℕ → ℝ) (n : ℕ) (y : ℕ → ℕ → ℝ) (D : ℕ) : ℝ :=
  (∑ i ∈ Finset.range n, Real.log (Real.cosh (x i))) * (-2) +
    log_abs_det_jacobian Option.none y D

/-! ## The distribution `CorrLCholeskyLKJPrior` -/

/-- Errors a Python call can surface with, as far as the claims need to
distinguish them. -/
inductive PyError
  | nameError : String → PyError
  | valueError : String → PyError
deriving DecidableEq

/-- The inner double loop of `CorrLCholeskyLKJPrior.__init__` that fills
`concentrations`: at block `k` the mutable `alpha` has just been decremented
by `0.5`, and is written to the `d - (k+1)` slots of that block.  `fuel` is
the number of remaining blocks (`d - 1` at the start). -/
def concAux (d : ℕ) : ℝ → ℕ → ℕ → List ℝ
  | _, _, 0 => []
  | alpha, k, fuel + 1 =>
    List.replicate (d - (k + 1)) (alpha - 0.5) ++ concAux d (alpha - 0.5) (k + 1) fuel

/-- The `concentrations` vector built in `CorrLCholeskyLKJPrior.__init__`,
starting from `alpha = eta + 0.5 * (d - 1)`. -/
def concentrations (eta : ℝ) (d : ℕ) : List ℝ :=
  concAux d (eta + 0.5 * ((d : ℝ) - 1)) 0 (d - 1)

/-- The validation at the top of `CorrLCholeskyLKJPrior.__init__`.  When
`eta ≤ 0` the source executes `raise ValueException("eta must be > 0")`, but
the name `ValueException` is defined nowhere (neither in the module nor among
Python builtins — the builtin is `ValueError`), so evaluating that statement
raises `NameError` rather than the intended validation error. -/
def corrLCholeskyLKJPrior_init (d : ℕ) (eta : ℝ) : Except PyError (List ℝ) :=
  if eta ≤ 0 then
    Except.error (PyError.nameError "name 'ValueException' is not defined")
  else Except.ok (concentrations eta d)

/-- `CorrLCholeskyLKJPrior.lkj_constant(eta, K)` (the value it computes and
caches).  `torch.lgamma t = Real.log |Real.Gamma t|`, and
`torch.linspace(1, K-1, K-1)` is `1, 2, …, K-1`, embedded as `Icc 1 (K-1)`. -/
def lkj_constant (eta : ℝ) (K : ℕ) : ℝ :=
  Real.log |Real.Gamma (eta + 0.5 * ((K : ℝ) - 1))| * ((K : ℝ) - 1) -
    ∑ k ∈ Finset.Icc 1 (K - 1),
      ((k : ℝ) * (Real.log Real.pi * 0.5) +
        Real.log |Real.Gamma (eta + 0.5 * (((K : ℝ) - 1) - (k : ℝ)))|)

/-- The normaliser formula as the specification writes it, parameterised by
the upper summation bound `ub` (the spec claims `ub = K - 2`; the code uses
`ub = K - 1`):
`(K-1)·log Γ(η + (K-1)/2) − Σ_{k=1}^{ub} [k·log(π)/2 + log Γ(η + (K-1-k)/2)]`. -/
def lkj_constant_specFormula (eta : ℝ) (K ub : ℕ) : ℝ :=
  ((K : ℝ) - 1) * Real.log (Real.Gamma (eta + ((K : ℝ) - 1) / 2)) -
    ∑ k ∈ Finset.Icc 1 ub,
      ((k : ℝ) * Real.log Real.pi / 2 +
        Real.log (Real.Gamma (eta + (((K : ℝ) - 1) - (k : ℝ)) / 2)))

/-- `CorrLCholeskyLKJPrior.log_prob` with `x`'s shape tracked.
`x.diagonal(...)[..., :-1]` has length `min rows cols - 1`;
`torch.linspace(Km1 - 1, 0, Km1)` has length `Km1 = cols - 1` and must be
`expand_as`-broadcast to the diagonal's length, which raises a size-mismatch
error unless the lengths agree or the linspace length is `1`. -/
def log_prob (eta : ℝ) (d : ℕ) (x : TMat) : Except String ℝ :=
  let Km1 := x.cols - 1
  let nd := min x.rows x.cols - 1
  if Km1 ≠ nd ∧ Km1 ≠ 1 then Except.error "expand size mismatch"
  else Except.ok (lkj_constant eta d +
    ∑ k ∈ Finset.range nd,
      (Real.log (x.entry k k) *
          (if Km1 = nd then ((Km1 - 1 - k : ℕ) : ℝ) else ((Km1 - 1 : ℕ) : ℝ)) +
        Real.log (x.entry k k) * (2 * eta - 2)))

/-- The support constraint `_CorrCholesky.check`: lower-triangular with
positive diagonal (`constraints.lower_cholesky`) and
`value.norm(dim=-1).sub(1) < 1e-6` rowwise. -/
def corr_cholesky_check (y : TMat) : Prop :=
  (∀ i j, i < y.rows → j < y.cols → i < j → y.entry i j = 0) ∧
    (∀ i, i < min y.rows y.cols → 0 < y.entry i i) ∧
    (∀ i, i < y.rows →
      Real.sqrt (∑ j ∈ Finset.range y.cols, (y.entry i j) ^ 2) - 1 < 1e-6)

/-- A concrete 2×2 correlation Cholesky factor `[[1, 0], [3/5, 4/5]]`
(row norms exactly 1), used to instantiate support hypotheses. -/
def exampleCholesky2 : ℕ → ℕ → ℝ := fun i j =>
  if i = 0 ∧ j = 0 then 1
  else if i = 1 ∧ j = 0 then 3 / 5
  else if i = 1 ∧ j = 1 then 4 / 5
  else 0

/-! ## Index lemmas -/

theorem colOffset_succ (D j : ℕ) : colOffset D (j + 1) = colOffset D j + (D - 1 - j) :=
  Finset.sum_range_succ _ j

theorem colOffset_one (D : ℕ) : colOffset D 1 = D - 1 := by
  simp [colOffset]

theorem colOffset_mono (D : ℕ) {a b : ℕ} (h : a ≤ b) : colOffset D a ≤ colOffset D b :=
  Finset.sum_le_sum_of_subset (Finset.range_subset.mpr h)

theorem colOffset_last (D : ℕ) (hD : 2 ≤ D) : colOffset D (D - 1) = D * (D - 1) / 2 := by
  obtain ⟨n, rfl⟩ : ∃ n, D = n + 2 := ⟨D - 2, by omega⟩
  have h1 : ∑ j ∈ Finset.range (n + 1), (j + 1) = colOffset (n + 2) (n + 1) := by
    rw [colOffset, ← Finset.sum_range_reflect (fun c => n + 2 - 1 - c) (n + 1)]
    refine Finset.sum_congr rfl fun j hj => ?_
    simp only [Finset.mem_range] at hj
    omega
  have h2 : (∑ i ∈ Finset.range (n + 2), i) = ∑ j ∈ Finset.range (n + 1), (j + 1) := by
    rw [Finset.sum_range_succ' (fun i => i) (n + 1)]
    simp
  have h3 := Finset.sum_range_id_mul_two (n + 2)
  have h4 : colOffset (n + 2) (n + 1) * 2 = (n + 2) * (n + 2 - 1) := by
    rw [← h1, ← h2]; exact h3
  simp only [show n + 2 - 1 = n + 1 from rfl] at h4 ⊢
  omega

theorem xIdx_lt (D i j : ℕ) (hj : j < i) (hi : i < D) :
    xIdx D i j < D * (D - 1) / 2 := by
  have hD : 2 ≤ D := by omega
  have h1 : xIdx D i j < colOffset D (j + 1) := by
    rw [xIdx, colOffset_succ]; omega
  have h2 : colOffset D (j + 1) ≤ colOffset D (D - 1) := colOffset_mono D (by omega)
  rw [colOffset_last D hD] at h2
  omega

/-! ## Positivity of the radicands along the forward recursion -/

theorem srow_zero (x : ℕ → ℝ) (D i : ℕ) : srow x D i 0 = 0 := rfl

theorem srow_succ (x : ℕ → ℝ) (D i j : ℕ) :
    srow x D i (j + 1) = srow x D i j + (entryFromS x D i j (srow x D i j)) ^ 2 := rfl

/-- Interiority of `x` keeps every radicand `1 - srow x D i j` strictly
positive: inductively, `1 - srow x D i (j+1) = (1 - srow x D i j) * (1 - x_{ij}²)`. -/
theorem one_sub_srow_pos (x : ℕ → ℝ) (D : ℕ)
    (hx : ∀ n, n < D * (D - 1) / 2 → |x n| < 1) {i : ℕ} (hiD : i < D) :
    ∀ j, j ≤ i → 0 < 1 - srow x D i j := by
  intro j
  induction j with
  | zero => intro _; simp [srow_zero]
  | succ j ih =>
    intro hji
    have hji' : j < i := Nat.lt_of_succ_le hji
    have hIH := ih (le_of_lt hji')
    have hidx : xIdx D i j < D * (D - 1) / 2 := xIdx_lt D i j hji' hiD
    have hxj := abs_lt.mp (hx _ hidx)
    rcases Nat.eq_zero_or_pos j with hj0 | hjpos
    · subst hj0
      have hi0 : i ≠ 0 := by omega
      have hidx0 : xIdx D i 0 = i - 1 := by simp [xIdx, colOffset]
      rw [hidx0] at hxj
      rw [srow_succ, srow_zero]
      have he : entryFromS x D i 0 0 = x (i - 1) := by simp [entryFromS, hi0]
      rw [he]
      nlinarith [hxj.1, hxj.2]
    · have hjne0 : j ≠ 0 := by omega
      have hjnei : j ≠ i := by omega
      rw [srow_succ]
      have he : entryFromS x D i j (srow x D i j) =
          x (xIdx D i j) * Real.sqrt (1 - srow x D i j) := by
        simp [entryFromS, hjne0, hjnei, hji']
      rw [he]
      have hs : Real.sqrt (1 - srow x D i j) ^ 2 = 1 - srow x D i j :=
        Real.sq_sqrt (by linarith)
      have h1 : 0 < 1 - (x (xIdx D i j)) ^ 2 := by nlinarith [hxj.1, hxj.2]
      have h2 := mul_pos hIH h1
      rw [mul_pow, hs]
      nlinarith [h2]

/-! ## Shape of the forward output -/

theorem forwardY_eq (x : ℕ → ℝ) (D i j : ℕ) (hi : i < D) (hj : j < D) :
    forwardY x D i j = entryFromS x D i j (srow x D i j) := by
  simp [forwardY, hi, hj]

theorem forwardY_upper (x : ℕ → ℝ) (D i j : ℕ) (hij : i < j) : forwardY x D i j = 0 := by
  have h1 : j ≠ 0 := by omega
  have h2 : j ≠ i := by omega
  have h3 : ¬j < i := by omega
  simp [forwardY, entryFromS, h1, h2, h3]

theorem sum_sq_eq_srow (x : ℕ → ℝ) (D i : ℕ) (hi : i < D) :
    ∀ j, j ≤ D → ∑ c ∈ Finset.range j, (forwardY x D i c) ^ 2 = srow x D i j := by
  intro j
  induction j with
  | zero => intro _; simp [srow_zero]
  | succ j ih =>
    intro hj
    rw [Finset.sum_range_succ, ih (by omega), srow_succ,
      forwardY_eq x D i j hi (by omega)]

theorem forwardY_zero_zero (x : ℕ → ℝ) (D : ℕ) (hD : 0 < D) : forwardY x D 0 0 = 1 := by
  rw [forwardY_eq x D 0 0 hD hD]; simp [entryFromS]

theorem forwardY_diag (x : ℕ → ℝ) (D i : ℕ) (hi : i < D) (hi0 : i ≠ 0) :
    forwardY x D i i = Real.sqrt (1 - srow x D i i) := by
  rw [forwardY_eq x D i i hi hi]; simp [entryFromS, hi0]

theorem forwardY_offdiag (x : ℕ → ℝ) (D i j : ℕ) (hi : i < D) (hj0 : j ≠ 0)
    (hji : j < i) :
    forwardY x D i j = x (xIdx D i j) * Real.sqrt (1 - srow x D i j) := by
  have hjne : j ≠ i := by omega
  rw [forwardY_eq x D i j hi (by omega)]
  simp [entryFromS, hj0, hjne, hji]

theorem forwardY_col0 (x : ℕ → ℝ) (D t : ℕ) (ht : t + 1 < D) :
    forwardY x D (t + 1) 0 = x t := by
  rw [forwardY_eq x D (t + 1) 0 ht (by omega)]
  simp [entryFromS]

theorem forwardY_diag_pos (x : ℕ → ℝ) (D : ℕ)
    (hx : ∀ n, n < D * (D - 1) / 2 → |x n| < 1) (i : ℕ) (hi : i < D) :
    0 < forwardY x D i i := by
  rcases eq_or_ne i 0 with h0 | h0
  · subst h0; rw [forwardY_zero_zero x D (by omega)]; norm_num
  · rw [forwardY_diag x D i hi h0]
    exact Real.sqrt_pos.mpr (one_sub_srow_pos x D hx hi i le_rfl)

theorem srow_succ_self (x : ℕ → ℝ) (D : ℕ)
    (hx : ∀ n, n < D * (D - 1) / 2 → |x n| < 1) (i : ℕ) (hi : i < D) :
    srow x D i (i + 1) = 1 := by
  rcases eq_or_ne i 0 with h0 | h0
  · subst h0; rw [srow_succ, srow_zero]; norm_num [entryFromS]
  · rw [srow_succ]
    have he : entryFromS x D i i (srow x D i i) = Real.sqrt (1 - srow x D i i) := by
      simp [entryFromS, h0]
    rw [he, Real.sq_sqrt (le_of_lt (one_sub_srow_pos x D hx hi i le_rfl))]
    ring

theorem sum_sq_row_eq_one (x : ℕ → ℝ) (D : ℕ)
    (hx : ∀ n, n < D * (D - 1) / 2 → |x n| < 1) (i : ℕ) (hi : i < D) :
    ∑ j ∈ Finset.range D, (forwardY x D i j) ^ 2 = 1 := by
  have h1 : ∑ j ∈ Finset.range (i + 1), (forwardY x D i j) ^ 2 =
      ∑ j ∈ Finset.range D, (forwardY x D i j) ^ 2 := by
    refine Finset.sum_subset (Finset.range_subset.mpr (by omega)) fun j _ hj => ?_
    have hij : i < j := by
      rcases Nat.lt_or_ge j (i + 1) with h | h
      · exact absurd (Finset.mem_range.mpr h) hj
      · omega
    rw [forwardY_upper x D i j hij]
    ring
  rw [← h1, sum_sq_eq_srow x D i hi (i + 1) (by omega), srow_succ_self x D hx i hi]

/-- **C2.**  For interior `x`, every row of `forward(x)` has Euclidean norm 1
(exactly, over ℝ), and the matrix is lower triangular with positive diagonal. -/
theorem forward_unit_rows (x : ℕ → ℝ) (D : ℕ)
    (hx : ∀ n, n < D * (D - 1) / 2 → -1 < x n ∧ x n < 1) :
    ∀ i, i < D →
      Real.sqrt (∑ j ∈ Finset.range D, (forwardY x D i j) ^ 2) = 1 ∧
        (∀ j, i < j → forwardY x D i j = 0) ∧
        0 < forwardY x D i i := by
  intro i hi
  have hx' : ∀ n, n < D * (D - 1) / 2 → |x n| < 1 := fun n hn =>
    abs_lt.mpr (hx n hn)
  refine ⟨?_, fun j hj => forwardY_upper x D i j hj, forwardY_diag_pos x D hx' i hi⟩
  rw [sum_sq_row_eq_one x D hx' i hi]
  exact Real.sqrt_one

/-- Witness for C2 at `D = 2`, `x = [1/2]`, row `i = 1`. -/
theorem forward_unit_rows_witness :
    (∀ n, n < 2 * (2 - 1) / 2 →
        -1 < (fun _ : ℕ => (1 : ℝ) / 2) n ∧ (fun _ : ℕ => (1 : ℝ) / 2) n < 1) ∧
      (Real.sqrt (∑ j ∈ Finset.range 2, (forwardY (fun _ => (1 : ℝ) / 2) 2 1 j) ^ 2) = 1 ∧
        (∀ j, 1 < j → forwardY (fun _ => (1 : ℝ) / 2) 2 1 j = 0) ∧
        0 < forwardY (fun _ => (1 : ℝ) / 2) 2 1 1) := by
  have hx : ∀ n, n < 2 * (2 - 1) / 2 →
      -1 < (fun _ : ℕ => (1 : ℝ) / 2) n ∧ (fun _ : ℕ => (1 : ℝ) / 2) n < 1 := by
    intro n _; norm_num
  exact ⟨hx, forward_unit_rows (fun _ => (1 : ℝ) / 2) 2 hx 1 (by norm_num)⟩

/-! ## Round trip of the partial-correlation transform -/

theorem flatMap_congr_range {α : Type} (n : ℕ) (f g : ℕ → List α)
    (h : ∀ j, j < n → f j = g j) :
    (List.range n).flatMap f = (List.range n).flatMap g := by
  induction n with
  | zero => simp
  | succ n ih =>
    rw [List.range_succ]
    simp only [List.flatMap_append, List.flatMap_cons, List.flatMap_nil, List.append_nil]
    rw [ih fun j hj => h j (by omega), h n (by omega)]

/-- Each recovered `z_tri` entry divides the corresponding forward entry by
the (nonzero) square root it was multiplied with, recovering `x` exactly. -/
theorem zTriEntry_forward (x : ℕ → ℝ) (D j r : ℕ)
    (hx : ∀ n, n < D * (D - 1) / 2 → |x n| < 1) (hi : j + r + 2 < D) :
    zTriEntry (forwardY x D) (j + r) j = x (xIdx D (j + r + 2) (j + 1)) := by
  have hsum : ∑ c ∈ Finset.range (j + 1), (forwardY x D (j + r + 2) c) ^ 2 =
      srow x D (j + r + 2) (j + 1) :=
    sum_sq_eq_srow x D (j + r + 2) hi (j + 1) (by omega)
  have hpos : 0 < 1 - srow x D (j + r + 2) (j + 1) :=
    one_sub_srow_pos x D hx hi (j + 1) (by omega)
  have hnum : forwardY x D (j + r + 2) (j + 1) =
      x (xIdx D (j + r + 2) (j + 1)) * Real.sqrt (1 - srow x D (j + r + 2) (j + 1)) :=
    forwardY_offdiag x D (j + r + 2) (j + 1) hi (by omega) (by omega)
  rw [zTriEntry, hsum, hnum]
  exact mul_div_cancel_right₀ _ (ne_of_gt (Real.sqrt_pos.mpr hpos))

/-- The concatenated `z_tri` blocks cover the flat indices
`D-1, D, …, colOffset D (m+1) - 1` in order. -/
theorem blocks_shape (x : ℕ → ℝ) (D : ℕ) : ∀ m,
    ((List.range m).flatMap fun j =>
        (List.range (D - 2 - j)).map fun r => x (colOffset D (j + 1) + r)) =
      (List.range' (D - 1) (colOffset D (m + 1) - (D - 1))).map x := by
  intro m
  induction m with
  | zero => simp [colOffset_one]
  | succ m ih =>
    rw [List.range_succ]
    simp only [List.flatMap_append, List.flatMap_cons, List.flatMap_nil, List.append_nil]
    rw [ih]
    have hb : ((List.range (D - 2 - m)).map fun r => x (colOffset D (m + 1) + r)) =
        (List.range' (colOffset D (m + 1)) (D - 2 - m)).map x := by
      rw [List.range'_eq_map_range, List.map_map]
      rfl
    rw [hb, ← List.map_append]
    congr 1
    have h1 : D - 1 ≤ colOffset D (m + 1) := by
      have := colOffset_mono D (show 1 ≤ m + 1 by omega)
      rwa [colOffset_one] at this
    have h2 : colOffset D (m + 1 + 1) = colOffset D (m + 1) + (D - 2 - m) := by
      rw [colOffset_succ]; omega
    have h3 := List.range'_append (D - 1) (colOffset D (m + 1) - (D - 1)) (D - 2 - m) 1
    rw [show D - 1 + 1 * (colOffset D (m + 1) - (D - 1)) = colOffset D (m + 1) by omega] at h3
    rw [h3]
    congr 1
    rw [h2]
    omega

/-- Round trip of the inner transform, in the exact concatenation order of
`_inverse`'s `z_stack`. -/
theorem inverseList_forward (x : ℕ → ℝ) (D : ℕ) (hD : 2 ≤ D)
    (hx : ∀ n, n < D * (D - 1) / 2 → |x n| < 1) :
    inverseList (forwardY x D) D = (List.range (D * (D - 1) / 2)).map x := by
  rw [inverseList]
  have hcol : ((List.range (D - 1)).map fun t => forwardY x D (t + 1) 0) =
      (List.range (D - 1)).map x := by
    refine List.map_congr_left fun t ht => ?_
    rw [List.mem_range] at ht
    exact forwardY_col0 x D t (by omega)
  have hblocks : ((List.range (D - 2)).flatMap fun j =>
      (List.range (D - 2 - j)).map fun r => zTriEntry (forwardY x D) (j + r) j) =
      (List.range (D - 2)).flatMap fun j =>
        (List.range (D - 2 - j)).map fun r => x (colOffset D (j + 1) + r) := by
    refine flatMap_congr_range _ _ _ fun j hj => ?_
    refine List.map_congr_left fun r hr => ?_
    rw [List.mem_range] at hr
    rw [zTriEntry_forward x D j r hx (by omega)]
    congr 1
    rw [xIdx]
    omega
  rw [hcol, hblocks, blocks_shape x D (D - 2), show D - 2 + 1 = D - 1 by omega,
    List.range_eq_range' (D - 1), ← List.map_append]
  congr 1
  have h1 : D - 1 ≤ colOffset D (D - 1) := by
    have := colOffset_mono D (show 1 ≤ D - 1 by omega)
    rwa [colOffset_one] at this
  have h3 := List.range'_append 0 (D - 1) (colOffset D (D - 1) - (D - 1)) 1
  rw [show 0 + 1 * (D - 1) = D - 1 by omega] at h3
  rw [h3, List.range_eq_range' (D * (D - 1) / 2)]
  congr 1
  rw [← colOffset_last D hD]
  omega

/-- **C1.**  For interior `x` of length `d(d-1)/2`, `d ≥ 2`, the inverse of
the forward transform returns `x` exactly (over ℝ). -/
theorem partialCorr_roundTrip (x : ℕ → ℝ) (D : ℕ) (hD : 2 ≤ D)
    (hx : ∀ n, n < D * (D - 1) / 2 → -1 < x n ∧ x n < 1) :
    inverseList (forwardY x D) D = (List.range (D * (D - 1) / 2)).map x :=
  inverseList_forward x D hD fun n hn => abs_lt.mpr (hx n hn)

/-- Witness for C1 at `D = 3`, `x = [1/2, -1/3, 1/4]`-style constant `1/2`. -/
theorem partialCorr_roundTrip_witness :
    (2 ≤ 3 ∧ ∀ n, n < 3 * (3 - 1) / 2 →
        -1 < (fun _ : ℕ => (1 : ℝ) / 2) n ∧ (fun _ : ℕ => (1 : ℝ) / 2) n < 1) ∧
      inverseList (forwardY (fun _ : ℕ => (1 : ℝ) / 2) 3) 3 =
        (List.range (3 * (3 - 1) / 2)).map (fun _ : ℕ => (1 : ℝ) / 2) := by
  have hx : ∀ n, n < 3 * (3 - 1) / 2 →
      -1 < (fun _ : ℕ => (1 : ℝ) / 2) n ∧ (fun _ : ℕ => (1 : ℝ) / 2) n < 1 := by
    intro n _; norm_num
  exact ⟨⟨by norm_num, hx⟩, partialCorr_roundTrip (fun _ => (1 : ℝ) / 2) 3 (by norm_num) hx⟩

/-! ## Round trip of the unconstrained transform -/

theorem tanh_mem_Ioo (t : ℝ) : -1 < Real.tanh t ∧ Real.tanh t < 1 := by
  have hc := Real.cosh_pos t
  have h1 := Real.cosh_sub_sinh t
  have h2 := Real.cosh_add_sinh t
  have he1 := Real.exp_pos (-t)
  have he2 := Real.exp_pos t
  rw [Real.tanh_eq_sinh_div_cosh]
  constructor
  · rw [lt_div_iff₀ hc]
    nlinarith
  · rw [div_lt_one hc]
    nlinarith

/-- `log((1 + tanh t) / (1 - tanh t)) / 2 = t`: the explicit `atanh` of the
source inverts `tanh` exactly over ℝ. -/
theorem atanh_tanh (t : ℝ) : Real.log ((1 + Real.tanh t) / (1 - Real.tanh t)) / 2 = t := by
  have hc := Real.cosh_pos t
  have h1 : 1 + Real.tanh t = Real.exp t / Real.cosh t := by
    rw [Real.tanh_eq_sinh_div_cosh, ← Real.cosh_add_sinh t]
    field_simp
  have h2 : 1 - Real.tanh t = Real.exp (-t) / Real.cosh t := by
    rw [Real.tanh_eq_sinh_div_cosh, ← Real.cosh_sub_sinh t]
    field_simp
  rw [h1, h2, div_div_div_comm, div_self (ne_of_gt hc), div_one, ← Real.exp_sub,
    show t - -t = 2 * t by ring, Real.log_exp]
  ring

/-- **C9.**  For every real vector `u` of length `d(d-1)/2` (`d ≥ 2`),
`UnconstrainedToCorrLCholeskyTransform.inverse (forward u) = u` exactly over ℝ. -/
theorem unconstrained_roundTrip (u : ℕ → ℝ) (D : ℕ) (hD : 2 ≤ D) :
    unconstrained_inverse (unconstrained_call u D) D =
      (List.range (D * (D - 1) / 2)).map u := by
  have hx : ∀ n, n < D * (D - 1) / 2 → |Real.tanh (u n)| < 1 := fun n _ =>
    abs_lt.mpr (tanh_mem_Ioo (u n))
  rw [unconstrained_inverse, unconstrained_call,
    inverseList_forward (fun n => Real.tanh (u n)) D hD hx, List.map_map]
  refine List.map_congr_left fun n _ => ?_
  simp only [Function.comp_apply]
  exact atanh_tanh (u n)

/-- Witness for C9 at `D = 2`, `u = [7]`. -/
theorem unconstrained_roundTrip_witness :
    2 ≤ 2 ∧ unconstrained_inverse (unconstrained_call (fun _ : ℕ => (7 : ℝ)) 2) 2 =
      (List.range (2 * (2 - 1) / 2)).map (fun _ : ℕ => (7 : ℝ)) :=
  ⟨by norm_num, unconstrained_roundTrip (fun _ => (7 : ℝ)) 2 (by norm_num)⟩

/-! ## The log-determinant of the Jacobian -/

/-- The `eye(D).ne(1)` mask zeroes exactly the diagonal: each masked row sum
of squares is the sum over the off-diagonal columns. -/
theorem masked_row_eq_erase (y : ℕ → ℕ → ℝ) (D i : ℕ) (hi : i ∈ Finset.range D) :
    ∑ j ∈ Finset.range D, (y i j * (if i = j then 0 else 1)) ^ 2 =
      ∑ j ∈ (Finset.range D).erase i, (y i j) ^ 2 := by
  rw [← Finset.sum_erase_add (Finset.range D) _ hi]
  have hgi : (y i i * (if i = i then 0 else 1 : ℝ)) ^ 2 = 0 := by simp
  rw [hgi, add_zero]
  refine Finset.sum_congr rfl fun j hj => ?_
  have hne := (Finset.mem_erase.mp hj).1
  rw [if_neg fun h => hne h.symm, mul_one]

/-- The off-diagonal sum of squares of row `i` of the forward output is the
accumulator value at the diagonal. -/
theorem erase_row_sum (x : ℕ → ℝ) (D i : ℕ) (hi : i ∈ Finset.range D) :
    ∑ j ∈ (Finset.range D).erase i, (forwardY x D i j) ^ 2 = srow x D i i := by
  rw [Finset.mem_range] at hi
  rw [← sum_sq_eq_srow x D i hi i (by omega)]
  symm
  refine Finset.sum_subset ?_ ?_
  · intro j hj
    rw [Finset.mem_range] at hj
    exact Finset.mem_erase.mpr ⟨by omega, Finset.mem_range.mpr (by omega)⟩
  · intro j hj hj2
    have h1 := (Finset.mem_erase.mp hj).1
    have h2 : ¬j < i := fun h => hj2 (Finset.mem_range.mpr h)
    rw [forwardY_upper x D i j (by omega)]
    ring

/-- **C7.**  On `y = forward(x)` with interior `x`, `log_abs_det_jacobian`
equals `0.5 · Σ_rows log(1 − Σ off-diagonal²)`, every `log` argument is
strictly positive (the value is finite and real), and at `d = 1` the value is
the empty-sum zero. -/
theorem ladj_formula_finite (x : ℕ → ℝ) (D : ℕ)
    (hx : ∀ n, n < D * (D - 1) / 2 → -1 < x n ∧ x n < 1) :
    log_abs_det_jacobian (some x) (forwardY x D) D =
        (0.5 : ℝ) * ∑ i ∈ Finset.range D,
          Real.log (1 - ∑ j ∈ (Finset.range D).erase i, (forwardY x D i j) ^ 2) ∧
      (∀ i, i < D →
        0 < 1 - ∑ j ∈ (Finset.range D).erase i, (forwardY x D i j) ^ 2) ∧
      (D = 1 → log_abs_det_jacobian (some x) (forwardY x D) D = 0) := by
  have hx' : ∀ n, n < D * (D - 1) / 2 → |x n| < 1 := fun n hn => abs_lt.mpr (hx n hn)
  refine ⟨?_, ?_, ?_⟩
  · rw [log_abs_det_jacobian]
    rw [Finset.sum_congr rfl fun i hi =>
      congrArg Real.log (congrArg (1 - ·) (masked_row_eq_erase (forwardY x D) D i hi))]
    ring
  · intro i hi
    rw [erase_row_sum x D i (Finset.mem_range.mpr hi)]
    exact one_sub_srow_pos x D hx' hi i le_rfl
  · intro hD1
    subst hD1
    norm_num [log_abs_det_jacobian, Finset.sum_range_one]

/-- Witness for C7 at `D = 2`, `x = [1/2]`. -/
theorem ladj_formula_finite_witness :
    (∀ n, n < 2 * (2 - 1) / 2 →
        -1 < (fun _ : ℕ => (1 : ℝ) / 2) n ∧ (fun _ : ℕ => (1 : ℝ) / 2) n < 1) ∧
      (log_abs_det_jacobian (some fun _ => (1 : ℝ) / 2)
            (forwardY (fun _ => (1 : ℝ) / 2) 2) 2 =
          (0.5 : ℝ) * ∑ i ∈ Finset.range 2,
            Real.log (1 - ∑ j ∈ (Finset.range 2).erase i,
              (forwardY (fun _ => (1 : ℝ) / 2) 2 i j) ^ 2) ∧
        (∀ i, i < 2 → 0 < 1 - ∑ j ∈ (Finset.range 2).erase i,
          (forwardY (fun _ => (1 : ℝ) / 2) 2 i j) ^ 2) ∧
        (2 = 1 → log_abs_det_jacobian (some fun _ => (1 : ℝ) / 2)
          (forwardY (fun _ => (1 : ℝ) / 2) 2) 2 = 0)) := by
  have hx : ∀ n, n < 2 * (2 - 1) / 2 →
      -1 < (fun _ : ℕ => (1 : ℝ) / 2) n ∧ (fun _ : ℕ => (1 : ℝ) / 2) n < 1 := by
    intro n _; norm_num
  exact ⟨hx, ladj_formula_finite (fun _ => (1 : ℝ) / 2) 2 hx⟩

/-- **C10.**  `log_abs_det_jacobian` never reads its first argument: its value
is a function of `y` alone (the wrapper transform's chain-rule term passes
`Option.none` there and adds its own `-2 Σ log cosh` part). -/
theorem ladj_ignores_first_arg (x1 x2 : Option (ℕ → ℝ)) (y : ℕ → ℕ → ℝ) (D : ℕ) :
    log_abs_det_jacobian x1 y D = log_abs_det_jacobian x2 y D ∧
      ∀ (u : ℕ → ℝ) (n : ℕ),
        unconstrained_log_abs_det_jacobian u n y D =
          (∑ i ∈ Finset.range n, Real.log (Real.cosh (u i))) * (-2) +
            log_abs_det_jacobian x1 y D :=
  ⟨rfl, fun _ _ => rfl⟩

/-! ## The normalising constant -/

theorem Gamma_three_halves : Real.Gamma (3 / 2) = Real.sqrt Real.pi / 2 := by
  have h : (3 / 2 : ℝ) = 1 / 2 + 1 := by norm_num
  rw [h, Real.Gamma_add_one (by norm_num : (1 / 2 : ℝ) ≠ 0), Real.Gamma_one_half_eq]
  ring

/-- **C3 counterexample.**  At `eta = 1`, `d = 2` the code's
`lkj_constant` is `-log 2`, while the spec's formula with upper summation
bound `d - 2 = 0` gives `log(√π/2)`; the two differ by `log(π)/2 ≠ 0`.
The code's `torch.linspace(1, d-1, d-1)` sums `k` up to `d - 1`, not `d - 2`. -/
theorem lkj_constant_claim_counterexample :
    lkj_constant 1 2 ≠ lkj_constant_specFormula 1 2 (2 - 2) := by
  have hpi1 : (1 : ℝ) < Real.pi := by linarith [Real.pi_gt_three]
  have hlogpi : 0 < Real.log Real.pi := Real.log_pos hpi1
  have hsq : 0 < Real.sqrt Real.pi / 2 := by positivity
  have harg : (1 : ℝ) + 0.5 * (((2 : ℕ) : ℝ) - 1) = 3 / 2 := by norm_num
  have harg2 : (1 : ℝ) + (((2 : ℕ) : ℝ) - 1) / 2 = 3 / 2 := by norm_num
  have hL : lkj_constant 1 2 =
      Real.log (Real.sqrt Real.pi / 2) - Real.log Real.pi * 0.5 := by
    rw [lkj_constant]
    rw [show (2 : ℕ) - 1 = 1 from rfl, Finset.Icc_self, Finset.sum_singleton]
    rw [harg, Gamma_three_halves]
    rw [show (1 : ℝ) + 0.5 * ((((2 : ℕ) : ℝ) - 1) - ((1 : ℕ) : ℝ)) = 1 by norm_num]
    rw [Real.Gamma_one, abs_of_pos hsq]
    norm_num
  have hR : lkj_constant_specFormula 1 2 (2 - 2) =
      Real.log (Real.sqrt Real.pi / 2) := by
    rw [lkj_constant_specFormula]
    rw [show (2 : ℕ) - 2 = 0 from rfl, show Finset.Icc 1 0 = (∅ : Finset ℕ) from rfl]
    rw [Finset.sum_empty, harg2, Gamma_three_halves]
    norm_num
  rw [hL, hR]
  intro h
  nlinarith [hlogpi]

/-- **C3 amended.**  For `d ≥ 2`, `eta > 0`, `lkj_constant(eta, d)` equals the
spec's Γ-function formula with the summation's upper bound `k = d - 1`
(rather than the claimed `d - 2`). -/
theorem lkj_constant_eq_specFormula (eta : ℝ) (K : ℕ) (heta : 0 < eta) (hK : 2 ≤ K) :
    lkj_constant eta K = lkj_constant_specFormula eta K (K - 1) := by
  rw [lkj_constant, lkj_constant_specFormula]
  have hKR : (2 : ℝ) ≤ (K : ℝ) := by exact_mod_cast hK
  have harg0 : eta + 0.5 * ((K : ℝ) - 1) = eta + ((K : ℝ) - 1) / 2 := by ring
  have hpos0 : 0 < eta + ((K : ℝ) - 1) / 2 := by nlinarith
  rw [harg0, abs_of_pos (Real.Gamma_pos_of_pos hpos0)]
  rw [Finset.sum_congr rfl fun k hk => ?_]
  · ring
  · rw [Finset.mem_Icc] at hk
    have hcast : ((K - 1 : ℕ) : ℝ) = (K : ℝ) - 1 := by
      have h1 : (1 : ℕ) ≤ K := by omega
      push_cast [h1]
      ring
    have hkR : (k : ℝ) ≤ (K : ℝ) - 1 := by
      rw [← hcast]
      exact_mod_cast hk.2
    have harg : eta + 0.5 * (((K : ℝ) - 1) - (k : ℝ)) =
        eta + (((K : ℝ) - 1) - (k : ℝ)) / 2 := by ring
    have hpos : 0 < eta + (((K : ℝ) - 1) - (k : ℝ)) / 2 := by nlinarith
    rw [harg, abs_of_pos (Real.Gamma_pos_of_pos hpos)]
    ring

/-- Witness for the amended C3 at `eta = 1`, `d = 3`. -/
theorem lkj_constant_eq_specFormula_witness :
    (0 < (1 : ℝ) ∧ 2 ≤ 3) ∧
      lkj_constant 1 3 = lkj_constant_specFormula 1 3 (3 - 1) :=
  ⟨⟨by norm_num, by norm_num⟩,
    lkj_constant_eq_specFormula 1 3 (by norm_num) (by norm_num)⟩

/-! ## The concentration vector -/

theorem concentrations_d3_value : concentrations 1 3 = [(3 / 2 : ℝ), 3 / 2, 1] := by
  rw [concentrations]
  norm_num [concAux, List.replicate]

/-- **C4 amended.**  The constructor with `d = 3`, `eta = 1` fills the
concentration vector as `[1.5, 1.5, 1.0]`: block `k = 0` (column 0 of the
partial-correlation layout, two slots) gets `alpha = 1.5`, block `k = 1`
(one slot) gets `alpha = 1.0`. -/
theorem concentrations_d3_eq : concentrations 1 3 = [(3 / 2 : ℝ), 3 / 2, 1] :=
  concentrations_d3_value

/-- **C4 counterexample.**  The vector is not the claimed `[1.5, 1.0, 1.5]`
(the middle entry the code produces is `1.5`, the last is `1.0`). -/
theorem concentrations_d3_counterexample :
    concentrations 1 3 ≠ [(3 / 2 : ℝ), 1, 3 / 2] := by
  rw [concentrations_d3_value]
  intro h
  simp only [List.cons.injEq] at h
  norm_num at h

/-! ## Constructor validation of eta -/

/-- **C5 (code bug).**  With `eta = 0` or `eta = -1` the constructor does
fail before any sampling — but with a `NameError`, because the raise
statement names the undefined `ValueException` instead of `ValueError`;
no validation error is raised. -/
theorem init_eta_nonpos_nameError :
    corrLCholeskyLKJPrior_init 3 0 =
        Except.error (PyError.nameError "name 'ValueException' is not defined") ∧
      corrLCholeskyLKJPrior_init 3 (-1) =
        Except.error (PyError.nameError "name 'ValueException' is not defined") := by
  constructor
  · rw [corrLCholeskyLKJPrior_init, if_pos le_rfl]
  · rw [corrLCholeskyLKJPrior_init, if_pos (by norm_num : (-1 : ℝ) ≤ 0)]

/-! ## Behaviour on non-square inputs -/

/-- **C6 counterexample.**  `log_prob` raises no error on the non-square
3×2 input: `cols - 1 = 1` broadcasts against the diagonal slice, so the call
returns a value.  (`_inverse` does raise on every non-square input.) -/
theorem log_prob_nonsquare_no_error :
    exceptOk (log_prob 1 3 ⟨3, 2, fun _ _ => 1⟩) = true ∧ (3 : ℕ) ≠ 2 :=
  ⟨rfl, by decide⟩

/-- **C6 amended.**  `_inverse` raises a domain error on every non-square
input; `log_prob` performs no squareness check — it fails only accidentally
when the linspace length `cols - 1` cannot broadcast against the diagonal
length (e.g. 2×3), and returns a value without error on other non-square
inputs (e.g. 3×2). -/
theorem nonsquare_error_behavior (y : TMat) (h : y.rows ≠ y.cols) :
    exceptOk (inverse_checked y) = false ∧
      exceptOk (log_prob 1 3 ⟨2, 3, fun _ _ => 1⟩) = false ∧
      exceptOk (log_prob 1 3 ⟨3, 2, fun _ _ => 1⟩) = true := by
  refine ⟨?_, rfl, rfl⟩
  rw [inverse_checked, if_pos h]
  rfl

/-- Witness for the amended C6 at the 2×3 input. -/
theorem nonsquare_error_behavior_witness :
    (⟨2, 3, fun _ _ => 1⟩ : TMat).rows ≠ (⟨2, 3, fun _ _ => 1⟩ : TMat).cols ∧
      (exceptOk (inverse_checked ⟨2, 3, fun _ _ => 1⟩) = false ∧
        exceptOk (log_prob 1 3 ⟨2, 3, fun _ _ => 1⟩) = false ∧
        exceptOk (log_prob 1 3 ⟨3, 2, fun _ _ => 1⟩) = true) := by
  have h : (⟨2, 3, fun _ _ => 1⟩ : TMat).rows ≠ (⟨2, 3, fun _ _ => 1⟩ : TMat).cols := by
    decide
  exact ⟨h, nonsquare_error_behavior _ h⟩

/-! ## The density formula -/

/-- **C8.**  On a square `K × K` input in the support, `log_prob` returns the
normalising constant plus `Σ_{k=0}^{K-2} log(y[k,k]) · ((K-2-k) + 2·eta - 2)`:
the last diagonal entry is dropped and the integer exponents descend from
`K-2` to `0`. -/
theorem log_prob_formula (eta : ℝ) (K : ℕ) (f : ℕ → ℕ → ℝ) (hK : 1 ≤ K)
    (hsupp : corr_cholesky_check ⟨K, K, f⟩) :
    log_prob eta K ⟨K, K, f⟩ =
      Except.ok (lkj_constant eta K +
        ∑ k ∈ Finset.range (K - 1),
          Real.log (f k k) * (((K - 2 - k : ℕ) : ℝ) + (2 * eta - 2))) := by
  simp only [log_prob, min_self]
  rw [if_neg fun h => h.1 rfl]
  congr 1
  congr 1
  refine Finset.sum_congr rfl fun k hk => ?_
  simp only [if_true]
  rw [show K - 1 - 1 = K - 2 by omega]
  ring

/-- Witness for C8 on the 2×2 factor `[[1, 0], [3/5, 4/5]]` with `eta = 1`. -/
theorem log_prob_formula_witness :
    (1 ≤ 2 ∧ corr_cholesky_check ⟨2, 2, exampleCholesky2⟩) ∧
      log_prob 1 2 ⟨2, 2, exampleCholesky2⟩ =
        Except.ok (lkj_constant 1 2 +
          ∑ k ∈ Finset.range (2 - 1),
            Real.log (exampleCholesky2 k k) * (((2 - 2 - k : ℕ) : ℝ) + (2 * 1 - 2))) := by
  have hsupp : corr_cholesky_check ⟨2, 2, exampleCholesky2⟩ := by
    refine ⟨?_, ?_, ?_⟩
    · intro i j hi hj hij
      interval_cases i <;> interval_cases j <;> simp_all [exampleCholesky2]
    · intro i hi
      simp only [show min 2 2 = 2 from rfl] at hi
      interval_cases i <;> norm_num [exampleCholesky2]
    · intro i hi
      interval_cases i
      · have h0 : (∑ j ∈ Finset.range 2, (exampleCholesky2 0 j) ^ 2) = 1 := by
          norm_num [exampleCholesky2, Finset.sum_range_succ]
        rw [h0, Real.sqrt_one]
        norm_num
      · have h1 : (∑ j ∈ Finset.range 2, (exampleCholesky2 1 j) ^ 2) = 1 := by
          norm_num [exampleCholesky2, Finset.sum_range_succ]
        rw [h1, Real.sqrt_one]
        norm_num
  exact ⟨⟨by norm_num, hsupp⟩, log_prob_formula 1 2 exampleCholesky2 (by norm_num) hsupp⟩

end
